import Mathlib

/-!
Verification development for the AICA editor extension
(`src/extension.ts`): the context-assembly, streaming-chat,
suggestion-parsing, diff-application and edit-orchestration pipeline.

Modelling conventions:
* JavaScript strings are modelled as lists of characters (`Str`);
  string literals are injected with `str`.
* JavaScript numbers that hold character counts or budgets are modelled
  as `Int` (they are always integral in the source); relevance scores,
  which involve the division `index / total`, are modelled as `ℚ`.
  `Math.floor(x * 0.6)` on an integral `x` is modelled as the exact
  rational floor `(6 * x) / 10` (Lean's `Int` division is floor division
  for a positive divisor); the sub-ulp difference of binary floating
  point cannot affect any statement proved here.
* Host collaborators (the workspace file list, the active editor, the
  network transport, the confirmation surface) are explicit parameters,
  exactly as the spec designates them external collaborators.
* `Char.toLower`-style case folding is modelled for ASCII, the range the
  source's data (keywords, markers, file names) lives in.
-/

/-- A JavaScript string, modelled as its list of characters. -/
abbrev Str := List Char

/-- Inject a Lean string literal as a `Str`. -/
def str (s : String) : Str := s.data

/-- The JavaScript whitespace class used by `trim` and by `\s` in regular
expressions (ASCII part). -/
def isWs (c : Char) : Bool :=
  c == ' ' || c == '\t' || c == '\n' || c == '\r' || c == '\x0b' || c == '\x0c'

/-- The regular-expression word class `\w` = `[A-Za-z0-9_]`. -/
def isWordChar (c : Char) : Bool :=
  c.isLower || c.isUpper || c.isDigit || c == '_'

/-- The table of ASCII uppercase/lowercase letter pairs. -/
def lowerPairs : List (Char × Char) :=
  [('A', 'a'), ('B', 'b'), ('C', 'c'), ('D', 'd'), ('E', 'e'), ('F', 'f'),
   ('G', 'g'), ('H', 'h'), ('I', 'i'), ('J', 'j'), ('K', 'k'), ('L', 'l'),
   ('M', 'm'), ('N', 'n'), ('O', 'o'), ('P', 'p'), ('Q', 'q'), ('R', 'r'),
   ('S', 's'), ('T', 't'), ('U', 'u'), ('V', 'v'), ('W', 'w'), ('X', 'x'),
   ('Y', 'y'), ('Z', 'z')]

/-- ASCII lowercasing of one character (JavaScript `toLowerCase`, restricted
to the ASCII range the source's data lives in). -/
def jsLowerChar (c : Char) : Char :=
  match lowerPairs.find? (fun p => p.1 == c) with
  | some p => p.2
  | none => c

/-- JavaScript `s.toLowerCase()` (ASCII). -/
def jsToLower (s : Str) : Str := s.map jsLowerChar

/-- Case-insensitive equality of characters (ASCII). -/
def ciEq (a b : Char) : Bool := jsLowerChar a == jsLowerChar b

/-- JavaScript `s.trim()`. -/
def jsTrim (s : Str) : Str :=
  ((s.dropWhile (fun c => isWs c)).reverse.dropWhile (fun c => isWs c)).reverse

/-- JavaScript `s.startsWith(p)`. -/
def strStartsWith (s p : Str) : Bool := p.isPrefixOf s

/-- JavaScript `s.includes(sub)` (substring containment). -/
def strIncludes : Str → Str → Bool
  | [], sub => sub.isEmpty
  | c :: t, sub => sub.isPrefixOf (c :: t) || strIncludes t sub

/-- Strip an exact literal prefix, returning the remainder on success. -/
def stripLit : Str → Str → Option Str
  | [], s => some s
  | _ :: _, [] => none
  | p :: ps, c :: cs => if p == c then stripLit ps cs else none

/-- Strip a case-insensitive literal prefix, returning the remainder. -/
def stripCI : Str → Str → Option Str
  | [], s => some s
  | _ :: _, [] => none
  | p :: ps, c :: cs => if ciEq p c then stripCI ps cs else none

/-- JavaScript `s.split('\n')`. -/
def splitNl : Str → List Str
  | [] => [[]]
  | c :: rest =>
    if c = '\n' then [] :: splitNl rest
    else
      match splitNl rest with
      | [] => [[c]]
      | l :: ls => (c :: l) :: ls

/-- JavaScript `lines.join('\n')`. -/
def joinNl : List Str → Str
  | [] => []
  | [l] => l
  | l :: l2 :: ls => l ++ '\n' :: joinNl (l2 :: ls)

/-- Decimal digits of a natural number, most significant first. -/
def natDigits (n : Nat) : Str := Nat.toDigits 10 n

/-- Value of a string of decimal digits (JavaScript `parseInt` on the
all-digit capture groups appearing in the source). -/
def digitsToNat (ds : Str) : Nat :=
  ds.foldl (fun acc c => acc * 10 + (c.toNat - 48)) 0

section KeywordExtractor

/-!  ## 4.1 Keyword Extractor (`_extractKeywords`, extension.ts:219-225) -/

/-- Maximal runs of `\w` characters of a text, accumulating the current
run in reverse. -/
def wordRunsAux : Str → Str → List Str
  | [], cur => if cur.isEmpty then [] else [cur.reverse]
  | c :: rest, cur =>
    if isWordChar c then wordRunsAux rest (c :: cur)
    else if cur.isEmpty then wordRunsAux rest []
    else cur.reverse :: wordRunsAux rest []

/-- Maximal runs of word characters. -/
def wordRuns (s : Str) : List Str := wordRunsAux s []

/-- JavaScript `text.match(/\b\w{3,}\b/g) || []`: the maximal
word-character runs of length at least three, in order. -/
def regexWordTokens (s : Str) : List Str :=
  (wordRuns s).filter (fun w => 3 ≤ w.length)

/-- De-duplication keeping first occurrences (JavaScript
`[...new Set(words)]`), with an accumulator of already-seen words. -/
def dedupeFirstAux : List Str → List Str → List Str
  | [], _ => []
  | w :: rest, seen =>
    if w ∈ seen then dedupeFirstAux rest seen
    else w :: dedupeFirstAux rest (w :: seen)

/-- The fixed stop-word list of `_extractKeywords`. -/
def stopWords : List Str :=
  [str "the", str "and", str "for", str "are", str "but", str "not",
   str "you", str "all", str "can", str "had", str "her", str "was",
   str "one", str "our", str "out", str "day", str "get", str "has",
   str "him", str "his", str "how", str "its", str "may", str "new",
   str "now", str "old", str "see", str "two", str "who", str "boy",
   str "did", str "she", str "use", str "way", str "what", str "when",
   str "with"]

/-- `_extractKeywords`: lowercase the text, take the word tokens of length
at least three, de-duplicate keeping first occurrences, and remove the
stop words. -/
def extractKeywords (text : Str) : List Str :=
  let words := regexWordTokens (jsToLower text)
  (dedupeFirstAux words []).filter (fun w => decide (w ∉ stopWords))

end KeywordExtractor

section RelevanceScorer

/-!  ## 4.2 Relevance Scorer (`_scoreLineRelevance`, `_extractCodeKeywords`,
extension.ts:227-255 and 357-376) -/

/-- The fixed code-signal substrings of `_scoreLineRelevance`. -/
def codeSignalWords : List Str :=
  [str "function", str "class", str "import", str "const", str "let",
   str "var", str "```", str "error", str "bug"]

/-- The fixed file-operation-signal substrings of `_scoreLineRelevance`. -/
def fileOpSignalWords : List Str :=
  [str "/read", str "/write", str "/exec", str "attached:", str "read file:"]

/-- `_scoreLineRelevance`: recency base plus five per matched keyword plus
the two fixed bonuses. -/
def scoreLineRelevance (line : Str) (keywords : List Str)
    (index total : Nat) : ℚ :=
  let lowerLine := jsToLower line
  ((index : ℚ) / (total : ℚ)) * 10
    + 5 * ((keywords.filter (fun k => strIncludes lowerLine k)).length : ℚ)
    + (if codeSignalWords.any (fun w => strIncludes lowerLine w) then 3 else 0)
    + (if fileOpSignalWords.any (fun w => strIncludes lowerLine w) then 4 else 0)

/-- Stable insertion of an element into a list sorted by descending score.
`sortDesc` inserts each element into the sort of the elements that follow
it, so placing the inserted element before the first one whose score does
not exceed its own keeps equal-scoring elements in their original order —
the stable descending sort performed by `Array.prototype.sort` with the
comparator `(a, b) => b.score - a.score`. -/
def insertDesc {α : Type} (sc : α → ℚ) (x : α) : List α → List α
  | [] => [x]
  | y :: ys => if sc y ≤ sc x then x :: y :: ys
               else y :: insertDesc sc x ys

/-- Stable sort by descending score. -/
def sortDesc {α : Type} (sc : α → ℚ) : List α → List α
  | [] => []
  | x :: xs => insertDesc sc x (sortDesc sc xs)

/-- Word-boundary condition to the right: the remainder must not start
with a word character. -/
def boundaryAfterOk (r : Str) : Bool :=
  match r with
  | [] => true
  | c :: _ => !isWordChar c

/-- Try the alternatives of a `\b(kw1|kw2|...)\b` group at the current
position: the first keyword that is a case-insensitive prefix and is
followed by a word boundary wins; the matched text keeps the input's
original characters.  Returns the match and the remainder. -/
def tryAltsBoundary (kws : List Str) (s : Str) : Option (Str × Str) :=
  match kws with
  | [] => none
  | kw :: rest =>
    match stripCI kw s with
    | some r =>
      if boundaryAfterOk r then some (s.take kw.length, r)
      else tryAltsBoundary rest s
    | none => tryAltsBoundary rest s

/-- Try the alternatives of `\b(kw1|...)\s+(\w+)` at the current position:
keyword, then at least one whitespace character (greedy), then at least
one word character (greedy). -/
def tryAltsKwSpWord (kws : List Str) (s : Str) : Option (Str × Str) :=
  match kws with
  | [] => none
  | kw :: rest =>
    match stripCI kw s with
    | some r =>
      let wsRun := r.takeWhile (fun c => isWs c)
      let afterWs := r.drop wsRun.length
      let wRun := afterWs.takeWhile (fun c => isWordChar c)
      if wsRun.isEmpty || wRun.isEmpty then tryAltsKwSpWord rest s
      else some (s.take kw.length ++ wsRun ++ wRun, afterWs.drop wRun.length)
    | none => tryAltsKwSpWord rest s

/-- Try `\.(ext1|ext2|...)\b` at the current position: a literal dot, then
an extension alternative followed by a word boundary. -/
def tryAltsDotExt (exts : List Str) (s : Str) : Option (Str × Str) :=
  match s with
  | '.' :: rest =>
    match tryAltsBoundary exts rest with
    | some (m, r) => some ('.' :: m, r)
    | none => none
  | _ => none

/-- Global scan for a pattern anchored on a left word boundary (`\b` before
a word character requires the previous character to be a non-word one);
matches are non-overlapping, scanning resumes after each match.  The fuel
is an upper bound on the number of scanning steps. -/
def scanBounded (tryAt : Str → Option (Str × Str)) :
    Nat → Option Char → Str → List Str
  | 0, _, _ => []
  | _ + 1, _, [] => []
  | fuel + 1, prev, c :: cs =>
    let boundaryHere := match prev with
      | none => true
      | some p => !isWordChar p
    if boundaryHere then
      match tryAt (c :: cs) with
      | some (m, r) => m :: scanBounded tryAt fuel m.getLast? r
      | none => scanBounded tryAt fuel (some c) cs
    else scanBounded tryAt fuel (some c) cs

/-- Global scan for a pattern with no left-boundary requirement. -/
def scanAll (tryAt : Str → Option (Str × Str)) : Nat → Str → List Str
  | 0, _ => []
  | _ + 1, [] => []
  | fuel + 1, c :: cs =>
    match tryAt (c :: cs) with
    | some (m, r) => m :: scanAll tryAt fuel r
    | none => scanAll tryAt fuel cs

/-- Alternatives of the first code pattern of `_extractCodeKeywords`. -/
def cpDeclKeywords : List Str :=
  [str "function", str "class", str "interface", str "type", str "const",
   str "let", str "var", str "import", str "export"]

/-- Alternatives of the second code pattern (role-name nouns). -/
def cpRoleKeywords : List Str :=
  [str "component", str "service", str "controller", str "model",
   str "util", str "helper", str "config"]

/-- Alternatives of the third code pattern (file extensions). -/
def cpExtKeywords : List Str :=
  [str "ts", str "js", str "py", str "rs", str "go", str "jsx", str "tsx",
   str "cpp", str "c", str "java", str "json", str "yml", str "yaml"]

/-- Alternatives of the fourth code pattern (API-route nouns). -/
def cpApiKeywords : List Str :=
  [str "api", str "endpoint", str "route", str "handler", str "middleware"]

/-- Alternatives of the fifth code pattern (test nouns). -/
def cpTestKeywords : List Str :=
  [str "test", str "spec", str "mock", str "fixture"]

/-- `_extractCodeKeywords`: run the five global case-insensitive patterns
in order, lowercase each full match and strip its non-word characters,
de-duplicate keeping first occurrences, keep results longer than two. -/
def extractCodeKeywords (text : Str) : List Str :=
  let n := text.length + 1
  let ms :=
    scanBounded (tryAltsKwSpWord cpDeclKeywords) n none text
      ++ scanBounded (tryAltsBoundary cpRoleKeywords) n none text
      ++ scanAll (tryAltsDotExt cpExtKeywords) n text
      ++ scanBounded (tryAltsBoundary cpApiKeywords) n none text
      ++ scanBounded (tryAltsBoundary cpTestKeywords) n none text
  let cleaned := ms.map (fun m => (jsToLower m).filter (fun c => isWordChar c))
  (dedupeFirstAux cleaned []).filter (fun k => 2 < k.length)

end RelevanceScorer

section ContextAssembler

/-!  ## 4.3 Context Assembler (`_buildChatPrompt`, `_getRelevantContext`,
`_getRelevantCodebaseContext`, `_getCurrentFileContext`,
extension.ts:136-217 and 257-399) -/

/-- A workspace file as the host hands it to the pipeline: its filesystem
path and its full text.  The glob filtering, the exclusion list and the
30-file cap of `findFiles`, as well as file readability, are host
collaborator behaviour, so the model receives the resulting list. -/
structure WFile where
  fsPath : Str
  content : Str

/-- `path.basename`: the final path segment. -/
def basename (p : Str) : Str :=
  (p.reverse.takeWhile (fun c => c ≠ '/')).reverse

/-- The fixed "important file" name fragments of
`_getRelevantCodebaseContext`. -/
def importantNames : List Str :=
  [str "package.json", str "readme", str "config", str "index",
   str "main", str "app"]

/-- The per-file relevance score of `_getRelevantCodebaseContext`:
ten per user keyword matching the lowercased file name or path, fifteen
per code keyword matching, plus a flat five for important names. -/
def scoreFile (keywords codeKeywords : List Str) (f : WFile) : ℚ :=
  let fileName := jsToLower (basename f.fsPath)
  let filePath := jsToLower f.fsPath
  10 * ((keywords.filter
          (fun k => strIncludes fileName k || strIncludes filePath k)).length : ℚ)
    + 15 * ((codeKeywords.filter
          (fun k => strIncludes fileName k || strIncludes filePath k)).length : ℚ)
    + (if importantNames.any (fun n => strIncludes fileName n) then 5 else 0)

/-- The context-building loop of `_getRelevantCodebaseContext`: stop when
the remaining budget drops below 200; truncate each file's text to
`min(remaining - 50, 800)` characters with a `...` marker; add the file
section only when it fits the remaining budget. -/
def buildFileSections : List (WFile × ℚ) → Int → Str → Str
  | [], _, ctx => ctx
  | fi :: rest, rem, ctx =>
    if rem < 200 then ctx
    else
      let content := fi.1.content
      let fileName := basename fi.1.fsPath
      let maxFileContent : Int := min (rem - 50) 800
      let truncatedContent :=
        if (content.length : Int) > maxFileContent
        then content.take maxFileContent.toNat ++ str "..."
        else content
      let fileSection :=
        '\n' :: (str "--- " ++ fileName ++ str " ---\n" ++ truncatedContent ++ ['\n'])
      if (fileSection.length : Int) ≤ rem
      then buildFileSections rest (rem - fileSection.length) (ctx ++ fileSection)
      else buildFileSections rest rem ctx

/-- `_getRelevantCodebaseContext`: score the workspace files against the
user's keywords and code keywords, keep the positive-scoring ones sorted
descending, take the top five (or a three-file fallback with nominal
score one), and assemble the `CODEBASE CONTEXT` section within the given
budget; empty when no workspace, a sub-100 budget, or a near-empty
result. -/
def getRelevantCodebaseContext (workspace : Option (List WFile))
    (userMsg : Str) (maxLength : Int) : Str :=
  match workspace with
  | none => []
  | some files =>
    if maxLength < 100 then []
    else
      let keywords := extractKeywords userMsg
      let codeKeywords := extractCodeKeywords userMsg
      let scoredFiles :=
        (files.map (fun f => (f, scoreFile keywords codeKeywords f))).filter
          (fun p => 0 < p.2)
      let topFiles := (sortDesc (fun p => p.2) scoredFiles).take 5
      let topFiles :=
        if topFiles.isEmpty then (files.take 3).map (fun f => (f, (1 : ℚ)))
        else topFiles
      let context := str "CODEBASE CONTEXT:\n"
      let result := buildFileSections topFiles (maxLength - context.length) context
      if 50 < result.length then result else []

/-- `_getCurrentFileContext`: the active editor's file, truncated to 1500
characters with a `...` marker; empty when there is no active editor. -/
def getCurrentFileContext : Option WFile → Str
  | none => []
  | some f =>
    let fileName := basename f.fsPath
    let content := f.content
    let truncatedContent :=
      if 1500 < content.length then content.take 1500 ++ str "..." else content
    str "CURRENT FILE CONTEXT:\n--- " ++ fileName ++ str " ---\n" ++ truncatedContent

/-- The greedy line-selection loop of `_getRelevantContext`: walk the
score-ordered lines and append each line (with a `\n` separator once the
result is non-empty) whenever `result.length + line.length + 1` still fits
the budget. -/
def greedyFill (maxLength : Int) : List (Str × ℚ) → Str → Str
  | [], result => result
  | item :: rest, result =>
    if (result.length : Int) + item.1.length + 1 ≤ maxLength
    then greedyFill maxLength rest
      (result ++ (if result.isEmpty then [] else ['\n']) ++ item.1)
    else greedyFill maxLength rest result

/-- `_getRelevantContext`: all of the history verbatim when it fits the
budget, otherwise the relevance-and-recency scored lines greedily packed
in descending score order. -/
def getRelevantContext (history : List Str) (currentMsg : Str)
    (maxLength : Int) : Str :=
  if history.isEmpty then []
  else
    let fullHistory := joinNl history
    if (fullHistory.length : Int) ≤ maxLength then fullHistory
    else
      let lines := splitNl fullHistory
      let keywords := extractKeywords currentMsg
      let scored := lines.enum.map
        (fun p => (p.2, scoreLineRelevance p.2 keywords p.1 lines.length))
      greedyFill maxLength (sortDesc (fun p => p.2) scored) []

/-- The fixed instructional system prompt of `_buildChatPrompt`. -/
def aicaSystemPrompt : Str :=
  str "You are AICA, an AI coding assistant integrated into VSCode. You can:\n"
    ++ str "- Review and analyze code\n"
    ++ str "- Read/write files using /read and /write commands\n"
    ++ str "- Execute terminal commands using /exec\n"
    ++ str "- List workspace files using /list\n"
    ++ str "- Apply code changes with diff previews\n"
    ++ str "- Provide streaming responses for better UX\n\n"
    ++ str "IMPORTANT: When suggesting code changes, you can trigger a preview interface similar to Cline by formatting your response with:\n\n"
    ++ str "**SUGGESTED CHANGES FOR [filename]:**\n"
    ++ str "[Brief description of what you\x27re changing]\n\n"
    ++ str "```[language]\n"
    ++ str "[Complete new file content]\n"
    ++ str "```\n\n"
    ++ str "This will automatically show a side-by-side diff preview where the user can see original vs modified code and choose to apply or cancel the changes.\n\n"
    ++ str "You have access to the current workspace and can see relevant files automatically.\n"
    ++ str "Be helpful, concise, and focus on practical solutions based on the codebase context."

/-- The fixed preamble: the system prompt followed by a blank line, the
initial value of `contextWindow` in `_buildChatPrompt`. -/
def promptPreamble : Str := aicaSystemPrompt ++ str "\n\n"

/-- `Math.floor(remainingLength * 0.6)` on an integral argument, as the
exact rational floor (Lean's `Int` division by a positive number is floor
division). -/
def jsFloor06 (x : Int) : Int := (6 * x) / 10

/-- `_buildChatPrompt`: the preamble, then the codebase-context section
within sixty percent of the remaining budget, then the current-file
section when it leaves at least 100 characters slack, then the relevant
history, then the literal user message.  `history` is the in-memory
`chatHistory`; `workspace` and `activeFile` are the host collaborators. -/
def buildChatPrompt (userMsg : Str) (history : List Str)
    (workspace : Option (List WFile)) (activeFile : Option WFile) : Str :=
  let contextWindow := promptPreamble
  let remainingLength : Int :=
    12000 - contextWindow.length - userMsg.length - 100
  let codebaseContext :=
    getRelevantCodebaseContext workspace userMsg (jsFloor06 remainingLength)
  let contextWindow :=
    if codebaseContext.isEmpty then contextWindow
    else contextWindow ++ codebaseContext ++ str "\n\n"
  let remainingLength :=
    if codebaseContext.isEmpty then remainingLength
    else remainingLength - codebaseContext.length
  let currentFileContext := getCurrentFileContext activeFile
  let addFile :=
    !currentFileContext.isEmpty
      && remainingLength > (currentFileContext.length : Int) + 100
  let contextWindow :=
    if addFile then contextWindow ++ currentFileContext ++ str "\n\n"
    else contextWindow
  let remainingLength :=
    if addFile then remainingLength - currentFileContext.length
    else remainingLength
  let relevantHistory := getRelevantContext history userMsg remainingLength
  contextWindow ++ relevantHistory ++ str "\nUser: " ++ userMsg ++ str "\nAICA:"

end ContextAssembler

section ModelClient

/-!  ## 4.4 Model Client (`getOllamaReview`, `getOllamaChat`,
extension.ts:878-973), including the newline-delimited JSON stream
reader.  `JSON.parse` is host/runtime functionality; it is embedded here
as a strict JSON parser over `Str`. -/

/-- A JSON value.  Numbers keep their literal text: the stream reader
only ever needs their truthiness and (in pathological cases) their
rendering, and the literals arising in this protocol are canonical. -/
inductive Json where
  | null : Json
  | bool : Bool → Json
  | num : Str → Json
  | jstr : Str → Json
  | arr : List Json → Json
  | obj : List (Str × Json) → Json

/-- Strict JSON insignificant whitespace. -/
def jsonWsChar (c : Char) : Bool :=
  c == ' ' || c == '\t' || c == '\n' || c == '\r'

/-- Skip strict JSON whitespace. -/
def jsonSkipWs (s : Str) : Str := s.dropWhile (fun c => jsonWsChar c)

/-- Value of a hexadecimal digit. -/
def hexVal (c : Char) : Option Nat :=
  if '0' ≤ c ∧ c ≤ '9' then some (c.toNat - 48)
  else if 'a' ≤ c ∧ c ≤ 'f' then some (c.toNat - 87)
  else if 'A' ≤ c ∧ c ≤ 'F' then some (c.toNat - 55)
  else none

/-- JSON single-character escapes. -/
def jsonEscChar : Char → Option Char
  | '"' => some '"'
  | '\\' => some '\\'
  | '/' => some '/'
  | 'b' => some '\x08'
  | 'f' => some '\x0c'
  | 'n' => some '\n'
  | 'r' => some '\r'
  | 't' => some '\t'
  | _ => none

/-- Parse the body of a JSON string after the opening quote, returning
the decoded characters and the remainder after the closing quote.
Unescaped control characters are rejected, as in strict JSON. -/
def parseJStrBody : Str → Option (Str × Str)
  | [] => none
  | c :: rest =>
    if c == '"' then some ([], rest)
    else if c == '\\' then
      match rest with
      | [] => none
      | 'u' :: h1 :: h2 :: h3 :: h4 :: rest4 =>
        match hexVal h1, hexVal h2, hexVal h3, hexVal h4 with
        | some a, some b, some c2, some d =>
          (match parseJStrBody rest4 with
           | some (cs, r) =>
             some (Char.ofNat (((a * 16 + b) * 16 + c2) * 16 + d) :: cs, r)
           | none => none)
        | _, _, _, _ => none
      | e :: rest2 =>
        match jsonEscChar e with
        | some d =>
          (match parseJStrBody rest2 with
           | some (cs, r) => some (d :: cs, r)
           | none => none)
        | none => none
    else if c.toNat < 32 then none
    else
      match parseJStrBody rest with
      | some (cs, r) => some (c :: cs, r)
      | none => none

/-- Parse a JSON number literal, returning its text and the remainder. -/
def parseJNum (s : Str) : Option (Str × Str) :=
  let signed := match s with
    | '-' :: t => ((['-'] : Str), t)
    | _ => (([] : Str), s)
  let intPart := signed.2.takeWhile (fun c => c.isDigit)
  if intPart.isEmpty then none
  else if 1 < intPart.length ∧ intPart.head? = some '0' then none
  else
    let s2 := signed.2.drop intPart.length
    let fracStep : Str × Str := match s2 with
      | '.' :: t =>
        let ds := t.takeWhile (fun c => c.isDigit)
        if ds.isEmpty then ([], s2) else ('.' :: ds, t.drop ds.length)
      | _ => ([], s2)
    let s3 := fracStep.2
    let expStep : Str × Str := match s3 with
      | e :: t =>
        if e == 'e' || e == 'E' then
          let signT : Str × Str := match t with
            | '+' :: t2 => (['+'], t2)
            | '-' :: t2 => (['-'], t2)
            | _ => ([], t)
          let ds := signT.2.takeWhile (fun c => c.isDigit)
          if ds.isEmpty then ([], s3)
          else (e :: (signT.1 ++ ds), signT.2.drop ds.length)
        else ([], s3)
      | [] => ([], s3)
    some (signed.1 ++ intPart ++ fracStep.1 ++ expStep.1, expStep.2)

mutual

/-- Parse one JSON value; the fuel bounds the recursion depth. -/
def parseJVal : Nat → Str → Option (Json × Str)
  | 0, _ => none
  | fuel + 1, s =>
    match jsonSkipWs s with
    | [] => none
    | c :: rest =>
      if c == '"' then
        match parseJStrBody rest with
        | some (cs, r) => some (.jstr cs, r)
        | none => none
      else if c == 't' then
        match stripLit (str "rue") rest with
        | some r => some (.bool true, r)
        | none => none
      else if c == 'f' then
        match stripLit (str "alse") rest with
        | some r => some (.bool false, r)
        | none => none
      else if c == 'n' then
        match stripLit (str "ull") rest with
        | some r => some (.null, r)
        | none => none
      else if c == '[' then
        match jsonSkipWs rest with
        | ']' :: r => some (.arr [], r)
        | s2 =>
          match parseJElems fuel s2 with
          | some (vs, r) => some (.arr vs, r)
          | none => none
      else if c == '\x7b' then
        match jsonSkipWs rest with
        | '\x7d' :: r => some (.obj [], r)
        | s2 =>
          match parseJMembers fuel s2 with
          | some (ms, r) => some (.obj ms, r)
          | none => none
      else
        match parseJNum (c :: rest) with
        | some (raw, r) => some (.num raw, r)
        | none => none

/-- Parse the comma-separated elements of a non-empty JSON array, up to
and including the closing bracket. -/
def parseJElems : Nat → Str → Option (List Json × Str)
  | 0, _ => none
  | fuel + 1, s =>
    match parseJVal fuel s with
    | some (v, r) =>
      (match jsonSkipWs r with
       | ',' :: r3 =>
         (match parseJElems fuel r3 with
          | some (vs, r4) => some (v :: vs, r4)
          | none => none)
       | ']' :: r3 => some ([v], r3)
       | _ => none)
    | none => none

/-- Parse the comma-separated members of a non-empty JSON object, up to
and including the closing brace. -/
def parseJMembers : Nat → Str → Option (List (Str × Json) × Str)
  | 0, _ => none
  | fuel + 1, s =>
    match jsonSkipWs s with
    | c :: rest =>
      if c == '"' then
        match parseJStrBody rest with
        | some (k, r) =>
          (match jsonSkipWs r with
           | ':' :: r3 =>
             (match parseJVal fuel r3 with
              | some (v, r4) =>
                (match jsonSkipWs r4 with
                 | ',' :: r6 =>
                   (match parseJMembers fuel r6 with
                    | some (ms, r7) => some ((k, v) :: ms, r7)
                    | none => none)
                 | '\x7d' :: r6 => some ([(k, v)], r6)
                 | _ => none)
              | none => none)
           | _ => none)
        | none => none
      else none
    | [] => none

end

/-- `JSON.parse` on one stream line: a single JSON value with nothing but
whitespace around it; `none` models the thrown `SyntaxError`. -/
def jsonParseStr (line : Str) : Option Json :=
  match parseJVal (2 * line.length + 2) line with
  | some (v, r) => if (jsonSkipWs r).isEmpty then some v else none
  | none => none

/-- Does this number literal denote zero (all mantissa digits zero)? -/
def jsonNumIsZero (raw : Str) : Bool :=
  (raw.takeWhile (fun c => c ≠ 'e' ∧ c ≠ 'E')).all
    (fun c => !('1' ≤ c ∧ c ≤ '9'))

/-- JavaScript truthiness of a parsed JSON value. -/
def jsTruthy : Json → Bool
  | .null => false
  | .bool b => b
  | .num raw => !jsonNumIsZero raw
  | .jstr s => !s.isEmpty
  | .arr _ => true
  | .obj _ => true

/-- JavaScript property access `v[k]` on a parsed JSON value: `none` is
`undefined`.  `JSON.parse` keeps the last of duplicate keys. -/
def jsGetField (v : Json) (k : Str) : Option Json :=
  match v with
  | .obj fields => (fields.reverse.find? (fun p => p.1 == k)).map (fun p => p.2)
  | _ => none

/-- JavaScript string coercion of a value appended with `+=`.  The
protocol's `content` fields are strings, for which this is the identity;
the remaining branches approximate JavaScript's rendering and are
unreachable for well-formed protocol traffic. -/
def jsToStringVal : Json → Str
  | .jstr s => s
  | .bool b => if b then str "true" else str "false"
  | .num raw => raw
  | .arr _ => []
  | .obj _ => str "[object Object]"
  | .null => str "null"

/-- The effect of the `try { ... } catch {}` body of `getOllamaChat` on
one decoded line: `none` when `JSON.parse` throws or the parsed value is
`null` (so that `data.message` throws a `TypeError`, also swallowed);
otherwise the content to accumulate, if `data.message` and
`data.message.content` are both truthy, together with the truthiness of
`data.done`. -/
def lineEffect (line : Str) : Option (Option Str × Bool) :=
  match jsonParseStr line with
  | none => none
  | some .null => none
  | some data =>
    let contentPart : Option Str :=
      match jsGetField data (str "message") with
      | none => none
      | some m =>
        if jsTruthy m then
          match jsGetField m (str "content") with
          | none => none
          | some c => if jsTruthy c then some (jsToStringVal c) else none
        else none
    let doneFlag := match jsGetField data (str "done") with
      | none => false
      | some v => jsTruthy v
    some (contentPart, doneFlag)

/-- The observable state of one `getOllamaChat` call: the accumulated
response, the `streamingUpdate` messages posted to the webview (content
delta and full content), the arguments of the `resolve` calls in order —
a promise delivers only the first — and the number of
`streamingComplete` messages. -/
structure ChatState where
  fullResponse : Str
  updates : List (Str × Str)
  resolves : List Str
  completes : Nat
deriving DecidableEq

/-- The initial state of a `getOllamaChat` call. -/
def initChatState : ChatState := ⟨[], [], [], 0⟩

/-- Process one decoded, non-blank line of the stream. -/
def processLine (st : ChatState) (line : Str) : ChatState :=
  match lineEffect line with
  | none => st
  | some (contentPart, doneFlag) =>
    let st1 := match contentPart with
      | some c =>
        { st with
          fullResponse := st.fullResponse ++ c,
          updates := st.updates ++ [(c, st.fullResponse ++ c)] }
      | none => st
    if doneFlag then { st1 with resolves := st1.resolves ++ [st1.fullResponse] }
    else st1

/-- `chunk.toString().split('\n').filter(line => line.trim())`. -/
def chunkLines (chunk : Str) : List Str :=
  (splitNl chunk).filter (fun l => !(jsTrim l).isEmpty)

/-- Process one `data` event of the stream. -/
def processChunk (st : ChatState) (chunk : Str) : ChatState :=
  (chunkLines chunk).foldl processLine st

/-- Process the `end` event: post `streamingComplete` and resolve with the
accumulated text. -/
def processEnd (st : ChatState) : ChatState :=
  { st with
    completes := st.completes + 1,
    resolves := st.resolves ++ [st.fullResponse] }

/-- Run one `getOllamaChat` call over the transport's chunk sequence
followed by its end-of-stream event. -/
def runOllamaChatStream (chunks : List Str) : ChatState :=
  processEnd (chunks.foldl processChunk initChatState)

/-- The value the promise of `getOllamaChat` settles on: the argument of
the first `resolve` call. -/
def resolvedValue (st : ChatState) : Option Str := st.resolves.head?

/-- The content delta a line contributes to `fullResponse`. -/
def lineContent (x : Str) : Str :=
  match lineEffect x with
  | some (some c, _) => c
  | _ => []

/-- Whether a line carries a truthy `done` flag. -/
def lineDone (x : Str) : Bool :=
  match lineEffect x with
  | some (_, d) => d
  | none => false

/-- The transport behaviour of one single-shot completion request. -/
inductive NetResult where
  | ok : Str → NetResult
  | fail : Str → NetResult

/-- The observable outcome of one `getOllamaReview` call: the returned
string and whether a network request was issued. -/
structure ReviewRun where
  result : Str
  networkAttempted : Bool
deriving DecidableEq

/-- `getOllamaReview`: reject the configured URL when it does not start
with `http` (returning the fixed message without touching the network);
otherwise issue the request and fall back to a fixed message on
transport failure.  `code` and `instruction` form the prompt; `net` is
the transport collaborator's response. -/
def getOllamaReview (apiUrl : Str) (_code _instruction : Str)
    (net : NetResult) : ReviewRun :=
  if !strStartsWith apiUrl (str "http") then
    ⟨str "Invalid Ollama URL.", false⟩
  else
    match net with
    | .ok r => ⟨r, true⟩
    | .fail _ =>
      ⟨str "Error connecting to Ollama. Ensure the server is running at "
        ++ apiUrl, true⟩

/-- Following the spec's words: a well-formed `http(s)://` URL begins
with the `http://` or `https://` scheme prefix.  (This deliberately
formalises the spec's phrase, to compare against the code's
`startsWith('http')` check.) -/
def wellFormedHttpUrl (s : Str) : Bool :=
  strStartsWith s (str "http://") || strStartsWith s (str "https://")

end ModelClient

section SuggestionParser

/-!  ## 4.5 Suggestion Parser (`_parseAndHandleCodeSuggestions`,
extension.ts:727-765): the global case-insensitive pattern
`\*\*SUGGESTED CHANGES FOR (.+?):\*\*\s*(.*?)\s*` followed by a fenced
block `` ```(\w+)? ... ``` ``, embedded as a specialised backtracking
matcher with the same lazy/greedy ordering. -/

/-- One parsed suggestion: trimmed target file name, trimmed rationale,
language tag (empty when absent) and trimmed proposed content. -/
structure Suggestion where
  targetFile : Str
  rationale : Str
  language : Str
  proposedContent : Str
deriving DecidableEq

/-- Search for the lazy `([\s\S]*?)` before a closing ` ``` ` fence: the
shortest prefix (accumulated in reverse) followed by the fence. -/
def fenceSearch (acc : Str) : Str → Option (Str × Str)
  | [] => none
  | c :: cs =>
    match stripLit (str "```") (c :: cs) with
    | some rest => some (acc.reverse, rest)
    | none => fenceSearch (c :: acc) cs

/-- After the opening fence: the greedy optional `(\w+)?` language tag,
then greedy `\s*`, then the lazy content up to the closing fence.
Returns language, content and the remainder after the match. -/
def tryFenceTail (s : Str) : Option (Str × Str × Str) :=
  let lang := s.takeWhile (fun c => isWordChar c)
  let s2 := (s.drop lang.length).dropWhile (fun c => isWs c)
  match fenceSearch [] s2 with
  | some (g4, rest) => some (lang, g4, rest)
  | none => none

/-- Greedy `\s*` followed by the literal opening fence: only consuming
the whole whitespace run can expose a backtick, so the greedy search is
deterministic here. -/
def tryWsFence (s : Str) : Option (Str × Str × Str) :=
  match stripLit (str "```") (s.dropWhile (fun c => isWs c)) with
  | some rest => tryFenceTail rest
  | none => none

/-- The lazy single-line rationale `(.*?)`: first try to match the rest
of the pattern at the current position, then extend the rationale by one
non-newline character.  Returns rationale, language, content, remainder. -/
def tryRationale (acc : Str) : Str → Option (Str × Str × Str × Str)
  | [] =>
    (match tryWsFence [] with
     | some (lang, g4, rest) => some (acc.reverse, lang, g4, rest)
     | none => none)
  | c :: cs =>
    match tryWsFence (c :: cs) with
    | some (lang, g4, rest) => some (acc.reverse, lang, g4, rest)
    | none =>
      if c == '\n' then none
      else tryRationale (c :: acc) cs

/-- The greedy `\s*` before the rationale, with backtracking: try the
longest whitespace prefix first (the rationale's `.` can itself consume
whitespace other than newlines). -/
def tryWsRationale : Nat → Str → Option (Str × Str × Str × Str)
  | 0, s => tryRationale [] s
  | k + 1, s =>
    match tryRationale [] (s.drop (k + 1)) with
    | some r => some r
    | none => tryWsRationale k s

/-- Match everything after the `:**` literal. -/
def tryAfterColon (s : Str) : Option (Str × Str × Str × Str) :=
  tryWsRationale (s.takeWhile (fun c => isWs c)).length s

/-- The lazy non-empty single-line file name `(.+?)`: the shortest
non-empty newline-free prefix followed by `:**` and a successful match of
the remaining pattern. -/
def tryFileName (acc : Str) : Str → Option (Str × Str × Str × Str × Str)
  | [] => none
  | c :: cs =>
    if c == '\n' then none
    else
      match stripLit (str ":**") cs with
      | some after =>
        (match tryAfterColon after with
         | some (g2, lang, g4, rest) =>
           some ((c :: acc).reverse, g2, lang, g4, rest)
         | none => tryFileName (c :: acc) cs)
      | none => tryFileName (c :: acc) cs

/-- Attempt the whole suggestion pattern at the current position,
producing the `Suggestion` the source builds from the four capture
groups (`match[1].trim()`, `match[2].trim()`, `match[3] || ''`,
`match[4].trim()`) and the remainder after the match. -/
def matchSuggestionAt (s : Str) : Option (Suggestion × Str) :=
  match stripCI (str "**SUGGESTED CHANGES FOR ") s with
  | none => none
  | some after =>
    match tryFileName [] after with
    | some (g1, g2, lang, g4, rest) =>
      some (⟨jsTrim g1, jsTrim g2, lang, jsTrim g4⟩, rest)
    | none => none

/-- The `exec` loop with the `g` flag: try each position left to right;
on a match, emit it and resume after the matched text (non-overlapping
matches).  The fuel bounds the number of scanning steps. -/
def scanSuggestions : Nat → Str → List Suggestion
  | 0, _ => []
  | _ + 1, [] => []
  | fuel + 1, c :: cs =>
    match matchSuggestionAt (c :: cs) with
    | some (sug, rest) => sug :: scanSuggestions fuel rest
    | none => scanSuggestions fuel cs

/-- The pure parsing stage of `_parseAndHandleCodeSuggestions`: every
non-overlapping match of the suggestion pattern, in order. -/
def parseCodeSuggestions (response : Str) : List Suggestion :=
  scanSuggestions response.length response

/-- Whether the case-insensitive marker literal
`**SUGGESTED CHANGES FOR ` occurs anywhere in the text. -/
def hasMarkerCI : Str → Bool
  | [] => false
  | c :: cs =>
    (stripCI (str "**SUGGESTED CHANGES FOR ") (c :: cs)).isSome || hasMarkerCI cs

end SuggestionParser

section DiffEngine

/-!  ## 4.6 Diff Engine (`applyDiffToContent`, extension.ts:1027-1060, and
the `compute` half, which the source delegates to the external `diff`
package's `createPatch` in `showDiffPreview`, extension.ts:1104-1134). -/

/-- Match `/@@ -(\d+),?\d* \+(\d+),?\d* @@/` at the start of the given
text and return `parseInt` of the first capture group.  After the
maximal digit run, an optional comma followed by a digit run is
consumed, then the literal ` +`; giving digits back to the lazy tail can
never create a new match, so this is the backtracking regex's result. -/
def hunkHeaderAt (s : Str) : Option Nat :=
  match stripLit (str "@@ -") s with
  | none => none
  | some s1 =>
    let d1 := s1.takeWhile (fun c => c.isDigit)
    if d1.isEmpty then none
    else
      let s2 := s1.drop d1.length
      let s3 := match s2 with
        | ',' :: t => t.dropWhile (fun c => c.isDigit)
        | _ => s2
      match stripLit (str " +") s3 with
      | none => none
      | some s4 =>
        let d2 := s4.takeWhile (fun c => c.isDigit)
        if d2.isEmpty then none
        else
          let s5 := s4.drop d2.length
          let s6 := match s5 with
            | ',' :: t => t.dropWhile (fun c => c.isDigit)
            | _ => s5
          match stripLit (str " @@") s6 with
          | none => none
          | some _ => some (digitsToNat d1)

/-- `line.match(/@@ -(\d+),?\d* \+(\d+),?\d* @@/)`: the leftmost match
anywhere in the line. -/
def parseHunkOrig : Str → Option Nat
  | [] => none
  | c :: rest =>
    match hunkHeaderAt (c :: rest) with
    | some n => some n
    | none => parseHunkOrig rest

/-- `result.findIndex((l, idx) => idx >= lineOffset && l === content)`,
with the running index carried explicitly. -/
def findIdxFromAux (l : List Str) (content : Str) (off : Int) (i : Nat) :
    Option Nat :=
  match l with
  | [] => none
  | x :: xs =>
    if off ≤ (i : Int) ∧ x = content then some i
    else findIdxFromAux xs content off (i + 1)

/-- JavaScript `arr.splice(start, 0, x)`: insertion with the `splice`
index clamping (negative counts from the end, overshoot clamps to the
length). -/
def jsSpliceInsert (l : List Str) (start : Int) (x : Str) : List Str :=
  let idx : Int :=
    if start < 0 then max ((l.length : Int) + start) 0
    else min start (l.length : Int)
  l.take idx.toNat ++ [x] ++ l.drop idx.toNat

/-- One iteration of the diff-application loop of `applyDiffToContent`,
on the state (current lines, current line offset): a hunk header resets
the offset; a `-` line removes the first matching line at or after the
offset (skipping silently when absent); a `+` line inserts at the offset
and advances it; anything else is ignored. -/
def applyDiffStep (st : List Str × Int) (line : Str) : List Str × Int :=
  if strStartsWith line (str "@@") then
    match parseHunkOrig line with
    | some n => (st.1, (n : Int) - 1)
    | none => st
  else if strStartsWith line (str "-") then
    match findIdxFromAux st.1 (line.drop 1) st.2 0 with
    | some i => (st.1.eraseIdx i, st.2)
    | none => st
  else if strStartsWith line (str "+") then
    (jsSpliceInsert st.1 st.2 (line.drop 1), st.2 + 1)
  else st

/-- `applyDiffToContent`: split both texts into lines, run the diff lines
over the state, and join the resulting lines. -/
def applyDiffToContent (originalContent diffText : Str) : Str :=
  let lines := splitNl originalContent
  let diffLines := splitNl diffText
  joinNl (diffLines.foldl applyDiffStep (lines, 0)).1

/-- Length of the common prefix of two line lists. -/
def commonPrefixLen : List Str → List Str → Nat
  | a :: as2, b :: bs => if a = b then commonPrefixLen as2 bs + 1 else 0
  | _, _ => 0

/-- Modelled from the spec (§4.6 Compute, §6): the diff engine's compute
operation, which the source delegates to the external `diff` package's
`createPatch` (code not part of this repository).  It produces a
standard unified diff: the `--- `/`+++ ` file header lines, a hunk
header with 1-based start lines and counts, and context (space), remove
(`-`) and add (`+`) lines; common leading and trailing lines are emitted
as context, the differing middle as removals then additions.  Reapplying
this diff with a standard patcher reconstructs the modified text, as
§4.6 requires of compute. -/
def createPatch (fileName A B : Str) : Str :=
  let aLines := splitNl A
  let bLines := splitNl B
  let p := commonPrefixLen aLines bLines
  let aRest := aLines.drop p
  let bRest := bLines.drop p
  let s := commonPrefixLen aRest.reverse bRest.reverse
  let aMid := aRest.take (aRest.length - s)
  let bMid := bRest.take (bRest.length - s)
  let script :=
    (aLines.take p).map (fun l => ' ' :: l)
      ++ aMid.map (fun l => '-' :: l)
      ++ bMid.map (fun l => '+' :: l)
      ++ (aRest.drop (aRest.length - s)).map (fun l => ' ' :: l)
  str "--- " ++ fileName ++ str "\n+++ " ++ fileName ++ ['\n']
    ++ str "@@ -1," ++ natDigits aLines.length
    ++ str " +1," ++ natDigits bLines.length ++ str " @@\n"
    ++ joinNl script ++ ['\n']

end DiffEngine

section EditOrchestrator

/-!  ## 4.7 Edit Orchestrator (`previewCodeChange`,
`showSideBySideDiffPreview`, extension.ts:976-998 and 1073-1101). -/

/-- An event of the confirmation webview panel: an `apply` message, a
`cancel` message, or the panel being disposed (dismissed). -/
inductive PanelEvent where
  | applyMsg : PanelEvent
  | cancelMsg : PanelEvent
  | dispose : PanelEvent

/-- The boolean decision `showSideBySideDiffPreview` resolves with: the
first event settles the promise — `apply` resolves `true`, `cancel`
resolves `false`, and `onDidDispose` resolves `false`; later resolve
calls are ignored, and with no event the promise stays pending. -/
def panelDecision : List PanelEvent → Option Bool
  | [] => none
  | .applyMsg :: _ => some true
  | .cancelMsg :: _ => some false
  | .dispose :: _ => some false

/-- The observable outcome of one `previewCodeChange` call on a target
file whose current content is `fileContent`. -/
structure PreviewOutcome where
  wrote : Bool
  fileContent : Str
deriving DecidableEq

/-- `previewCodeChange`: await the confirmation surface's decision; on
`true`, replace the whole target file's content with the proposed code
in one edit; otherwise (including dismissal, or a promise that never
settles) perform no mutation. -/
def previewCodeChange (_originalCode newCode : Str) (fileContent : Str)
    (events : List PanelEvent) : PreviewOutcome :=
  match panelDecision events with
  | some true => ⟨true, newCode⟩
  | some false => ⟨false, fileContent⟩
  | none => ⟨false, fileContent⟩

end EditOrchestrator

section HistoryTruncation

/-!  ## Conversation-history truncation (`resolveWebviewView`,
extension.ts:39-42). -/

/-- The history entry one completed exchange appends:
`` `User: ${userMsg}\nAICA: ${response}` ``. -/
def formatTurn (userMsg response : Str) : Str :=
  str "User: " ++ userMsg ++ str "\nAICA: " ++ response

/-- JavaScript `chatHistory.slice(-10)`: the last ten entries (all of
them when there are at most ten). -/
def sliceLast10 (h : List Str) : List Str := h.drop (h.length - 10)

/-- One `sendMessage` exchange's effect on the in-memory history: append
the formatted turn, then truncate to the last ten entries when the
chat-history retention flag is disabled. -/
def pushTurn (retention : Bool) (h : List Str) (turn : Str × Str) :
    List Str :=
  let h2 := h ++ [formatTurn turn.1 turn.2]
  if retention then h2 else sliceLast10 h2

/-- Run a sequence of exchanges through the chat message handler. -/
def runTurns (retention : Bool) (h : List Str)
    (turns : List (Str × Str)) : List Str :=
  turns.foldl (pushTurn retention) h

end HistoryTruncation

/-!  # Helper lemmas -/

theorem splitNl_ne_nil (s : Str) : splitNl s ≠ [] := by
  induction s with
  | nil => simp [splitNl]
  | cons c rest ih =>
    unfold splitNl
    split
    · simp
    · cases h : splitNl rest <;> simp

theorem joinNl_splitNl (s : Str) : joinNl (splitNl s) = s := by
  induction s with
  | nil => rfl
  | cons c rest ih =>
    unfold splitNl
    split
    · rename_i hc
      cases h : splitNl rest with
      | nil => exact absurd h (splitNl_ne_nil rest)
      | cons l ls =>
        rw [h] at ih
        simp [joinNl, hc, ih]
    · cases h : splitNl rest with
      | nil => exact absurd h (splitNl_ne_nil rest)
      | cons l ls =>
        rw [h] at ih
        cases ls with
        | nil => simp [joinNl] at ih ⊢; simp [ih]
        | cons l2 ls2 => simp [joinNl] at ih ⊢; simp [ih]

theorem splitNl_eq_single (x : Str) (h : ∀ c ∈ x, c ≠ '\n') :
    splitNl x = [x] := by
  induction x with
  | nil => rfl
  | cons c rest ih =>
    unfold splitNl
    rw [if_neg (h c (by simp))]
    rw [ih (fun d hd => h d (by simp [hd]))]

theorem applyDiff_foldl_noop (ls : List Str) (st : List Str × Int)
    (h : ∀ l ∈ ls, strStartsWith l (str "@@") = false ∧
        strStartsWith l (str "+") = false ∧ strStartsWith l (str "-") = false) :
    ls.foldl applyDiffStep st = st := by
  induction ls generalizing st with
  | nil => rfl
  | cons l ls ih =>
    have hl := h l (by simp)
    have step : applyDiffStep st l = st := by
      unfold applyDiffStep
      simp [hl.1, hl.2.1, hl.2.2]
    rw [List.foldl_cons, step]
    exact ih st (fun x hx => h x (by simp [hx]))

theorem sliceLast10_idem (h : List Str) :
    sliceLast10 (sliceLast10 h) = sliceLast10 h := by
  unfold sliceLast10
  rw [List.length_drop]
  have he : h.length - (h.length - 10) - 10 = 0 := by omega
  rw [he, List.drop_zero]

theorem sliceLast10_append_left (a b : List Str) :
    sliceLast10 (sliceLast10 a ++ b) = sliceLast10 (a ++ b) := by
  unfold sliceLast10
  rw [← List.drop_append_of_le_length (by omega : a.length - 10 ≤ a.length),
    List.drop_drop]
  congr 1
  simp only [List.length_drop, List.length_append]
  omega

theorem runTurns_false_eq (ts : List (Str × Str)) (h : List Str)
    (hh : sliceLast10 h = h) :
    runTurns false h ts =
      sliceLast10 (h ++ ts.map (fun p => formatTurn p.1 p.2)) := by
  induction ts generalizing h with
  | nil => simp [runTurns, hh]
  | cons t ts ih =>
    have hstep : runTurns false h (t :: ts) =
        runTurns false (sliceLast10 (h ++ [formatTurn t.1 t.2])) ts := by
      simp [runTurns, pushTurn]
    rw [hstep, ih _ (sliceLast10_idem _), sliceLast10_append_left]
    simp

/-!  # Claim theorems -/

/-- C1 (the code evaluated at the failing input): the unified diff
computed from `"a\nb\nc"` to `"a\nx\nc"` — two texts without duplicate
lines — applied back onto the original by `applyDiffToContent` yields
`"x\n++ f\na\nc"`, not the modified text: the `+++ f` file header line is
itself treated as an addition (inserting `++ f`), and the replacement
line is inserted at the hunk start because context lines never advance
the cursor.  The round-trip invariant of §3/§4.6/§8 fails. -/
theorem c1_roundtrip_failure :
    applyDiffToContent (str "a\nb\nc")
        (createPatch (str "f") (str "a\nb\nc") (str "a\nx\nc")) =
      str "x\n++ f\na\nc" ∧
    str "x\n++ f\na\nc" ≠ str "a\nx\nc" := by
  decide

/-- C4 (counterexample): `httpgarbage` is not a well-formed `http(s)://`
URL, yet `getOllamaReview` does issue the network request for it — the
source only checks `startsWith('http')` — and the returned string is the
transport-failure fallback, not the invalid-URL message.  So the claim's
"for every address that is not a well-formed http(s):// URL, no network
attempt is made" is false. -/
theorem c4_counterexample :
    wellFormedHttpUrl (str "httpgarbage") = false ∧
    (getOllamaReview (str "httpgarbage") (str "code") (str "instr")
        (.fail (str "ECONNREFUSED"))).networkAttempted = true ∧
    (getOllamaReview (str "httpgarbage") (str "code") (str "instr")
        (.fail (str "ECONNREFUSED"))).result ≠ str "Invalid Ollama URL." := by
  decide

/-- C4 (amended): for every configured server address that does not start
with `http`, `getOllamaReview` returns the user-facing error string
`Invalid Ollama URL.` without making any network attempt and without
throwing, for every transport behaviour. -/
theorem c4_invalid_endpoint_amended (apiUrl code instruction : Str)
    (net : NetResult) (h : strStartsWith apiUrl (str "http") = false) :
    getOllamaReview apiUrl code instruction net =
      ⟨str "Invalid Ollama URL.", false⟩ := by
  unfold getOllamaReview
  simp [h]

/-- Witness for C4 (amended) at the concrete address `ftp://server`. -/
theorem c4_witness :
    getOllamaReview (str "ftp://server") (str "code") (str "instr")
        (.ok (str "resp")) = ⟨str "Invalid Ollama URL.", false⟩ :=
  c4_invalid_endpoint_amended _ _ _ _ (by decide)

/-- C6: for every original text, proposed text, target content and
sequence of confirmation-panel events, if the surface's decision is not
affirmative — a `cancel` message, a dismissal (disposal resolves
`false`), or no decision at all — then `previewCodeChange` performs no
write and the target file's content is unchanged; and a write happens
only on an affirmative decision. -/
theorem c6_no_write_on_rejection (orig new content : Str)
    (events : List PanelEvent) :
    (panelDecision events ≠ some true →
      (previewCodeChange orig new content events).wrote = false ∧
      (previewCodeChange orig new content events).fileContent = content) ∧
    ((previewCodeChange orig new content events).wrote = true →
      panelDecision events = some true) := by
  unfold previewCodeChange
  rcases h : panelDecision events with _ | b
  · simp
  · cases b <;> simp

/-- Witness for C6: a dismissed confirmation prompt performs no write and
leaves the file content unchanged. -/
theorem c6_witness :
    (previewCodeChange (str "orig") (str "proposed") (str "orig")
        [PanelEvent.dispose]).wrote = false ∧
    (previewCodeChange (str "orig") (str "proposed") (str "orig")
        [PanelEvent.dispose]).fileContent = str "orig" :=
  (c6_no_write_on_rejection _ _ _ _).1 (by decide)

/-- C7: with the chat-history retention flag disabled, appending any 15
conversation turns through the chat message handler starting from the
empty history leaves exactly the last 10 turns, in their original
relative order. -/
theorem c7_history_truncation (ts : List (Str × Str))
    (hlen : ts.length = 15) :
    runTurns false [] ts = (ts.map (fun p => formatTurn p.1 p.2)).drop 5 := by
  have h := runTurns_false_eq ts [] rfl
  simp only [List.nil_append] at h
  rw [h]
  unfold sliceLast10
  rw [List.length_map, hlen]

/-- Witness for C7 at 15 concrete turns. -/
theorem c7_witness :
    runTurns false [] (List.replicate 15 ((['u'] : Str), (['r'] : Str))) =
      ((List.replicate 15 ((['u'] : Str), (['r'] : Str))).map
        (fun p => formatTurn p.1 p.2)).drop 5 :=
  c7_history_truncation _ (by decide)

/-- C10: for every base text and every diff text none of whose lines
starts with `@@`, `+` or `-` (in particular the empty diff text, whose
only line is empty), `applyDiffToContent` returns the base text
unchanged. -/
theorem c10_noop_diff (base diffText : Str)
    (h : ∀ l ∈ splitNl diffText, strStartsWith l (str "@@") = false ∧
        strStartsWith l (str "+") = false ∧ strStartsWith l (str "-") = false) :
    applyDiffToContent base diffText = base := by
  show joinNl ((splitNl diffText).foldl applyDiffStep (splitNl base, 0)).1 = base
  rw [applyDiff_foldl_noop _ _ h]
  exact joinNl_splitNl base

/-- Witness for C10: the empty diff text leaves a base text unchanged. -/
theorem c10_witness :
    applyDiffToContent (str "line1\nline2") ([] : Str) = str "line1\nline2" :=
  c10_noop_diff _ _ (by decide)

/-- C3: when the transport delivers exactly the two chunks
`{"message":{"content":"Hel"}}\n` and `{"message":{"content":"lo"},"done":true}\n`,
`getOllamaChat` resolves with exactly `"Hello"` (the `done` fragment
triggers the first — and hence the effective — `resolve`, the later
end-of-stream `resolve` being ignored by promise semantics), and the
listener receives exactly the two partial-content notifications
`("Hel", "Hel")` and `("lo", "Hello")`. -/
theorem c3_streaming_scenario :
    resolvedValue (runOllamaChatStream
        [str "\x7b\"message\":\x7b\"content\":\"Hel\"\x7d\x7d\n",
         str "\x7b\"message\":\x7b\"content\":\"lo\"\x7d,\"done\":true\x7d\n"]) =
      some (str "Hello") ∧
    (runOllamaChatStream
        [str "\x7b\"message\":\x7b\"content\":\"Hel\"\x7d\x7d\n",
         str "\x7b\"message\":\x7b\"content\":\"lo\"\x7d,\"done\":true\x7d\n"]).updates =
      [(str "Hel", str "Hel"), (str "lo", str "Hello")] := by
  decide

theorem mem_dedupeFirstAux {x : Str} :
    ∀ {l seen : List Str}, x ∈ dedupeFirstAux l seen → x ∈ l := by
  intro l
  induction l with
  | nil => intro seen h; simp [dedupeFirstAux] at h
  | cons w rest ih =>
    intro seen h
    unfold dedupeFirstAux at h
    split at h
    · exact List.mem_cons_of_mem _ (ih h)
    · rcases List.mem_cons.mp h with h1 | h2
      · simp [h1]
      · exact List.mem_cons_of_mem _ (ih h2)

theorem dedupeFirstAux_not_mem_seen {x : Str} :
    ∀ {l seen : List Str}, x ∈ dedupeFirstAux l seen → x ∉ seen := by
  intro l
  induction l with
  | nil => intro seen h; simp [dedupeFirstAux] at h
  | cons w rest ih =>
    intro seen h
    unfold dedupeFirstAux at h
    split at h
    · exact ih h
    · rcases List.mem_cons.mp h with h1 | h2
      · rename_i hw; subst h1; exact hw
      · intro hx
        exact ih h2 (List.mem_cons_of_mem _ hx)

theorem dedupeFirstAux_nodup : ∀ (l seen : List Str),
    (dedupeFirstAux l seen).Nodup := by
  intro l
  induction l with
  | nil => intro seen; simp [dedupeFirstAux]
  | cons w rest ih =>
    intro seen
    unfold dedupeFirstAux
    split
    · exact ih seen
    · refine List.nodup_cons.mpr ⟨?_, ih (w :: seen)⟩
      intro hmem
      exact dedupeFirstAux_not_mem_seen hmem (by simp)

theorem wordRunsAux_chars_isWord :
    ∀ (s cur : Str), (∀ c ∈ cur, isWordChar c = true) →
      ∀ w ∈ wordRunsAux s cur, ∀ c ∈ w, isWordChar c = true := by
  intro s
  induction s with
  | nil =>
    intro cur hcur w hw c hc
    unfold wordRunsAux at hw
    split at hw
    · simp at hw
    · simp at hw
      subst hw
      exact hcur c (List.mem_reverse.mp hc)
  | cons a rest ih =>
    intro cur hcur w hw c hc
    unfold wordRunsAux at hw
    split at hw
    · rename_i ha
      refine ih (a :: cur) ?_ w hw c hc
      intro d hd
      rcases List.mem_cons.mp hd with rfl | h2
      · exact ha
      · exact hcur d h2
    · split at hw
      · exact ih [] (by simp) w hw c hc
      · rcases List.mem_cons.mp hw with rfl | h2
        · exact hcur c (List.mem_reverse.mp hc)
        · exact ih [] (by simp) w h2 c hc

theorem wordRunsAux_chars_mem :
    ∀ (s cur : Str), ∀ w ∈ wordRunsAux s cur, ∀ c ∈ w, c ∈ s ∨ c ∈ cur := by
  intro s
  induction s with
  | nil =>
    intro cur w hw c hc
    unfold wordRunsAux at hw
    split at hw
    · simp at hw
    · simp at hw
      subst hw
      exact Or.inr (List.mem_reverse.mp hc)
  | cons a rest ih =>
    intro cur w hw c hc
    unfold wordRunsAux at hw
    split at hw
    · rcases ih (a :: cur) w hw c hc with h1 | h2
      · exact Or.inl (List.mem_cons_of_mem _ h1)
      · rcases List.mem_cons.mp h2 with rfl | h3
        · exact Or.inl (by simp)
        · exact Or.inr h3
    · split at hw
      · rcases ih [] w hw c hc with h1 | h2
        · exact Or.inl (List.mem_cons_of_mem _ h1)
        · simp at h2
      · rcases List.mem_cons.mp hw with rfl | h2
        · exact Or.inr (List.mem_reverse.mp hc)
        · rcases ih [] w h2 c hc with h1 | h3
          · exact Or.inl (List.mem_cons_of_mem _ h1)
          · simp at h3

theorem lowerPairs_snd_fixed : ∀ p ∈ lowerPairs, jsLowerChar p.2 = p.2 := by
  decide

theorem jsLowerChar_idem (c : Char) :
    jsLowerChar (jsLowerChar c) = jsLowerChar c := by
  rcases h : lowerPairs.find? (fun p => p.1 == c) with _ | p
  · have h1 : jsLowerChar c = c := by unfold jsLowerChar; rw [h]
    rw [h1, h1]
  · have h1 : jsLowerChar c = p.2 := by unfold jsLowerChar; rw [h]
    rw [h1]
    exact lowerPairs_snd_fixed p (List.mem_of_find?_eq_some h)

theorem map_id_of_forall {f : Char → Char} :
    ∀ (w : Str), (∀ c ∈ w, f c = c) → w.map f = w := by
  intro w
  induction w with
  | nil => simp
  | cons a l ih =>
    intro h
    simp only [List.map_cons, h a (by simp),
      ih (fun c hc => h c (by simp [hc]))]

/-- C8: `_extractKeywords` sends the empty string to the empty set, sends
`"The cat and the Dog ran"` to exactly `{cat, dog, ran}` (case-folded,
stop words removed), and for every input text returns a duplicate-free
list of tokens, each at least three characters long, consisting of
word-class characters (hence matching the word-boundary pattern), fixed
under lowercasing, and free of stop words.  Being a pure function of its
input, it is deterministic. -/
theorem c8_keyword_extraction :
    extractKeywords [] = [] ∧
    extractKeywords (str "The cat and the Dog ran") =
      [str "cat", str "dog", str "ran"] ∧
    (∀ t : Str, (extractKeywords t).Nodup) ∧
    (∀ (t w : Str), w ∈ extractKeywords t →
      3 ≤ w.length ∧ (∀ c ∈ w, isWordChar c = true) ∧
      jsToLower w = w ∧ w ∉ stopWords) := by
  refine ⟨by decide, by decide, ?_, ?_⟩
  · intro t
    exact List.Nodup.filter _ (dedupeFirstAux_nodup _ [])
  · intro t w hw
    unfold extractKeywords at hw
    rw [List.mem_filter] at hw
    obtain ⟨hmem, hstop⟩ := hw
    have hw2 : w ∈ regexWordTokens (jsToLower t) := mem_dedupeFirstAux hmem
    unfold regexWordTokens wordRuns at hw2
    rw [List.mem_filter] at hw2
    obtain ⟨hruns, hlen⟩ := hw2
    refine ⟨by simpa using hlen, ?_, ?_, by simpa using hstop⟩
    · exact wordRunsAux_chars_isWord _ [] (by simp) w hruns
    · apply map_id_of_forall
      intro c hc
      rcases wordRunsAux_chars_mem _ [] w hruns c hc with h1 | h1
      · unfold jsToLower at h1
        obtain ⟨c2, _, rfl⟩ := List.mem_map.mp h1
        exact jsLowerChar_idem c2
      · simp at h1

/-- Witness for C8's universal part at the token `cat` of the input
`cat`. -/
theorem c8_witness :
    3 ≤ (str "cat").length ∧ (∀ c ∈ str "cat", isWordChar c = true) ∧
    jsToLower (str "cat") = str "cat" ∧ str "cat" ∉ stopWords :=
  c8_keyword_extraction.2.2.2 (str "cat") (str "cat") (by decide)

theorem mem_dropWhile_of_not {p : Char → Bool} :
    ∀ {l : Str} {c : Char}, c ∈ l → p c = false → c ∈ l.dropWhile p := by
  intro l
  induction l with
  | nil => simp
  | cons a t ih =>
    intro c hc hp
    rw [List.dropWhile_cons]
    split
    · rcases List.mem_cons.mp hc with rfl | h2
      · rename_i hpa
        rw [hp] at hpa
        simp at hpa
      · exact ih h2 hp
    · exact hc

theorem dropWhile_head_false {p : Char → Bool} :
    ∀ {l : Str} {c : Char} {t : Str}, l.dropWhile p = c :: t → p c = false := by
  intro l
  induction l with
  | nil => intro c t h; simp at h
  | cons a l2 ih =>
    intro c t h
    rw [List.dropWhile_cons] at h
    split at h
    · exact ih h
    · rename_i hpa
      obtain ⟨rfl, -⟩ := List.cons.injEq .. ▸ h
      simpa using hpa

theorem dropWhile_mem {p : Char → Bool} :
    ∀ {l : Str} {c : Char}, c ∈ l.dropWhile p → c ∈ l := by
  intro l
  induction l with
  | nil => simp
  | cons a t ih =>
    intro c h
    rw [List.dropWhile_cons] at h
    split at h
    · exact List.mem_cons_of_mem _ (ih h)
    · exact h

theorem all_ws_of_trim_empty {x : Str} (h : jsTrim x = []) :
    ∀ c ∈ x, isWs c = true := by
  unfold jsTrim at h
  rw [List.reverse_eq_nil_iff, List.dropWhile_eq_nil_iff] at h
  intro c hc
  by_cases hcw : isWs c = true
  · exact hcw
  · have h1 : c ∈ x.dropWhile (fun d => isWs d) :=
      mem_dropWhile_of_not hc (by simpa using hcw)
    have h2 : c ∈ (x.dropWhile (fun d => isWs d)).reverse :=
      List.mem_reverse.mpr h1
    exact h c h2

theorem parseJVal_all_ws_none {x : Str} (hws : ∀ c ∈ x, isWs c = true) :
    ∀ n, parseJVal (n + 1) x = none := by
  intro n
  cases hy : jsonSkipWs x with
  | nil => simp [parseJVal, hy]
  | cons c rest =>
    have hc1 : isWs c = true := hws c (dropWhile_mem (hy ▸ List.mem_cons_self c rest))
    have hc2 : jsonWsChar c = false := dropWhile_head_false hy
    have hc3 : c = '\x0b' ∨ c = '\x0c' := by
      simp [isWs] at hc1
      simp [jsonWsChar] at hc2
      tauto
    rcases hc3 with rfl | rfl <;>
      simp [parseJVal, hy, parseJNum, List.takeWhile_cons]

theorem lineEffect_ws_none {x : Str} (h : ∀ c ∈ x, isWs c = true) :
    lineEffect x = none := by
  have hp : jsonParseStr x = none := by
    unfold jsonParseStr
    have he : 2 * x.length + 2 = (2 * x.length + 1) + 1 := rfl
    rw [he, parseJVal_all_ws_none h]
  unfold lineEffect
  rw [hp]

theorem processChunk_single {st : ChatState} {x : Str}
    (h : ∀ c ∈ x, c ≠ '\n') :
    processChunk st x = processLine st x := by
  unfold processChunk chunkLines
  rw [splitNl_eq_single x h]
  by_cases ht : jsTrim x = []
  · have hnone : lineEffect x = none := lineEffect_ws_none (all_ws_of_trim_empty ht)
    simp [ht, processLine, hnone]
  · have hb : (!(jsTrim x).isEmpty) = true := by simpa using ht
    simp only [List.filter_cons, List.filter_nil, hb, if_true]
    rfl

theorem processLine_resolves_append (st : ChatState) (l : Str) :
    ∃ t, (processLine st l).resolves = st.resolves ++ t := by
  unfold processLine
  cases he : lineEffect l with
  | none => exact ⟨[], by simp⟩
  | some p =>
    obtain ⟨c?, d⟩ := p
    cases c? <;> cases d <;> simp

theorem processChunk_resolves_append (st : ChatState) (c : Str) :
    ∃ t, (processChunk st c).resolves = st.resolves ++ t := by
  unfold processChunk
  generalize chunkLines c = ls
  induction ls generalizing st with
  | nil => exact ⟨[], by simp⟩
  | cons l ls ih =>
    rw [List.foldl_cons]
    obtain ⟨t1, h1⟩ := processLine_resolves_append st l
    obtain ⟨t2, h2⟩ := ih (processLine st l)
    exact ⟨t1 ++ t2, by rw [h2, h1, List.append_assoc]⟩

theorem foldl_chunks_resolves_append (chunks : List Str) (st : ChatState) :
    ∃ t, (chunks.foldl processChunk st).resolves = st.resolves ++ t := by
  induction chunks generalizing st with
  | nil => exact ⟨[], by simp⟩
  | cons c cs ih =>
    rw [List.foldl_cons]
    obtain ⟨t1, h1⟩ := processChunk_resolves_append st c
    obtain ⟨t2, h2⟩ := ih (processChunk st c)
    exact ⟨t1 ++ t2, by rw [h2, h1, List.append_assoc]⟩

theorem processLine_shape (st : ChatState) (x : Str)
    (hd : lineDone x = false) :
    ∃ ups, processLine st x =
      ⟨st.fullResponse ++ lineContent x, st.updates ++ ups,
       st.resolves, st.completes⟩ := by
  unfold processLine lineContent
  cases he : lineEffect x with
  | none => exact ⟨[], by simp⟩
  | some p =>
    obtain ⟨c?, d⟩ := p
    have hdf : d = false := by
      unfold lineDone at hd
      rw [he] at hd
      exact hd
    subst hdf
    cases c? with
    | none => exact ⟨[], by simp⟩
    | some c => exact ⟨[(c, st.fullResponse ++ c)], by simp⟩

theorem foldl_no_done (xs : List Str) (st : ChatState)
    (hx : ∀ x ∈ xs, (∀ c ∈ x, c ≠ '\n') ∧ lineDone x = false) :
    ∃ ups, xs.foldl processChunk st =
      ⟨st.fullResponse ++ (xs.map lineContent).flatten,
       st.updates ++ ups, st.resolves, st.completes⟩ := by
  induction xs generalizing st with
  | nil => exact ⟨[], by simp⟩
  | cons x xs ih =>
    obtain ⟨hnl, hd⟩ := hx x (by simp)
    rw [List.foldl_cons, processChunk_single hnl]
    obtain ⟨u1, h1⟩ := processLine_shape st x hd
    obtain ⟨u2, h2⟩ := ih (processLine st x) (fun y hy => hx y (by simp [hy]))
    refine ⟨u1 ++ u2, ?_⟩
    rw [h2, h1]
    simp [List.append_assoc]

/-- C9 (implicit): for every stream of newline-delimited JSON fragments
in which the fragments before the first `done:true` fragment carry no
truthy `done` flag, the promise of `getOllamaChat` resolves with exactly
the concatenation, in arrival order, of the content contributed by the
fragments up to and including that first `done` fragment; whatever the
transport delivers afterwards (the `ys`, which are unconstrained here and
may still produce partial-content notifications) cannot change the
resolved value, because only the first `resolve` call of a promise takes
effect. -/
theorem c9_resolved_at_first_done (xs ys : List Str) (d : Str)
    (hxs : ∀ x ∈ xs, (∀ c ∈ x, c ≠ '\n') ∧ lineDone x = false)
    (hdnl : ∀ c ∈ d, c ≠ '\n')
    (hdone : lineDone d = true) :
    resolvedValue (runOllamaChatStream (xs ++ d :: ys)) =
      some (((xs ++ [d]).map lineContent).flatten) := by
  unfold runOllamaChatStream
  rw [List.foldl_append, List.foldl_cons]
  obtain ⟨ups, hpre⟩ := foldl_no_done xs initChatState hxs
  rw [hpre, processChunk_single hdnl]
  have hde : ∃ c?, lineEffect d = some (c?, true) := by
    unfold lineDone at hdone
    cases he : lineEffect d with
    | none => rw [he] at hdone; simp at hdone
    | some p => rw [he] at hdone; exact ⟨p.1, by rw [← hdone]⟩
  obtain ⟨c?, hde⟩ := hde
  have hstep : (processLine
      ⟨initChatState.fullResponse ++ (xs.map lineContent).flatten,
       initChatState.updates ++ ups, initChatState.resolves,
       initChatState.completes⟩ d).resolves =
      [(xs.map lineContent).flatten ++ lineContent d] := by
    unfold processLine lineContent
    rw [hde]
    cases c? with
    | none => simp [initChatState]
    | some c => simp [initChatState]
  obtain ⟨t, hys⟩ := foldl_chunks_resolves_append ys
    (processLine
      ⟨initChatState.fullResponse ++ (xs.map lineContent).flatten,
       initChatState.updates ++ ups, initChatState.resolves,
       initChatState.completes⟩ d)
  unfold resolvedValue processEnd
  rw [List.head?_append, hys, List.head?_append, hstep]
  simp

/-- Witness for C9: a content-bearing fragment after the first `done`
fragment does not change the resolved value. -/
theorem c9_witness :
    resolvedValue (runOllamaChatStream
        ([str "\x7b\"message\":\x7b\"content\":\"Hel\"\x7d\x7d"] ++
          str "\x7b\"message\":\x7b\"content\":\"lo\"\x7d,\"done\":true\x7d" ::
          [str "\x7b\"message\":\x7b\"content\":\"XYZ\"\x7d\x7d"])) =
      some ((([str "\x7b\"message\":\x7b\"content\":\"Hel\"\x7d\x7d"] ++
        [str "\x7b\"message\":\x7b\"content\":\"lo\"\x7d,\"done\":true\x7d"]).map
          lineContent).flatten) :=
  c9_resolved_at_first_done _ _ _ (by decide) (by decide) (by decide)

theorem dropWhile_dropWhile {p : Char → Bool} (l : Str) :
    (l.dropWhile p).dropWhile p = l.dropWhile p := by
  induction l with
  | nil => rfl
  | cons a t ih =>
    rw [List.dropWhile_cons]
    split
    · exact ih
    · rename_i hpa
      rw [List.dropWhile_cons, if_neg hpa]

theorem trim_prefix_dropWhile (s : Str) :
    ∃ w, s.dropWhile (fun c => isWs c) = jsTrim s ++ w := by
  refine ⟨((s.dropWhile (fun c => isWs c)).reverse.takeWhile
    (fun c => isWs c)).reverse, ?_⟩
  conv_lhs => rw [← List.reverse_reverse (s.dropWhile (fun c => isWs c)),
    ← List.takeWhile_append_dropWhile (fun c => isWs c)
      ((s.dropWhile (fun c => isWs c)).reverse)]
  rw [List.reverse_append]
  rfl

theorem jsTrim_head_not_ws {s : Str} {c : Char} {t : Str}
    (h : jsTrim s = c :: t) : isWs c = false := by
  obtain ⟨w, hw⟩ := trim_prefix_dropWhile s
  rw [h, List.cons_append] at hw
  exact dropWhile_head_false hw

theorem jsTrim_idem (s : Str) : jsTrim (jsTrim s) = jsTrim s := by
  have h2 : (jsTrim s).dropWhile (fun c => isWs c) = jsTrim s := by
    cases hc : jsTrim s with
    | nil => rfl
    | cons c t =>
      rw [List.dropWhile_cons, if_neg (by simp [jsTrim_head_not_ws hc])]
  have h1 : (jsTrim s).reverse.dropWhile (fun c => isWs c) =
      (jsTrim s).reverse := by
    have hr : (jsTrim s).reverse =
        ((s.dropWhile (fun c => isWs c)).reverse).dropWhile (fun c => isWs c) := by
      unfold jsTrim
      rw [List.reverse_reverse]
    rw [hr, dropWhile_dropWhile, ← hr]
  show ((((jsTrim s).dropWhile (fun c => isWs c)).reverse.dropWhile
    (fun c => isWs c))).reverse = jsTrim s
  rw [h2, h1, List.reverse_reverse]

theorem scanSuggestions_nil_of_no_marker :
    ∀ (fuel : Nat) (s : Str), hasMarkerCI s = false →
      scanSuggestions fuel s = [] := by
  intro fuel
  induction fuel with
  | zero => intro s h; rfl
  | succ n ih =>
    intro s h
    cases s with
    | nil => rfl
    | cons c cs =>
      unfold hasMarkerCI at h
      rw [Bool.or_eq_false_iff] at h
      obtain ⟨h1, h2⟩ := h
      have hm : matchSuggestionAt (c :: cs) = none := by
        unfold matchSuggestionAt
        cases hs : stripCI (str "**SUGGESTED CHANGES FOR ") (c :: cs) with
        | none => rfl
        | some r => rw [hs] at h1; simp at h1
      unfold scanSuggestions
      rw [hm]
      exact ih cs h2

theorem mem_scanSuggestions_trimmed :
    ∀ (fuel : Nat) (s : Str) (sug : Suggestion), sug ∈ scanSuggestions fuel s →
      jsTrim sug.targetFile = sug.targetFile ∧
      jsTrim sug.rationale = sug.rationale ∧
      jsTrim sug.proposedContent = sug.proposedContent := by
  intro fuel
  induction fuel with
  | zero => intro s sug h; simp [scanSuggestions] at h
  | succ n ih =>
    intro s sug h
    cases s with
    | nil => simp [scanSuggestions] at h
    | cons c cs =>
      unfold scanSuggestions at h
      cases hm : matchSuggestionAt (c :: cs) with
      | none =>
        rw [hm] at h
        exact ih cs sug h
      | some pr =>
        rw [hm] at h
        obtain ⟨sug2, rest⟩ := pr
        rcases List.mem_cons.mp h with rfl | h2
        · unfold matchSuggestionAt at hm
          cases h1 : stripCI (str "**SUGGESTED CHANGES FOR ") (c :: cs) with
          | none => rw [h1] at hm; simp at hm
          | some after =>
            rw [h1] at hm
            dsimp only [] at hm
            cases h3 : tryFileName [] after with
            | none => rw [h3] at hm; simp at hm
            | some q =>
              rw [h3] at hm
              obtain ⟨g1, g2, lang, g4, rest2⟩ := q
              simp only [Option.some.injEq, Prod.mk.injEq] at hm
              obtain ⟨hsug, -⟩ := hm
              rw [← hsug]
              exact ⟨jsTrim_idem g1, jsTrim_idem g2, jsTrim_idem g4⟩
        · exact ih rest sug h2

/-- C5: the suggestion parser of `_parseAndHandleCodeSuggestions` sends
the text `**SUGGESTED CHANGES FOR foo.ts:**` + rationale `Fix typo` + a
`ts`-tagged fence containing `const x = 1;` to exactly one Suggestion
with `targetFile = "foo.ts"`, `rationale = "Fix typo"`,
`proposedContent = "const x = 1;"`; a response that never contains the
marker yields no suggestions; and every suggestion any response yields
has trimmed filename, rationale and content.  The parser is a total
function, so parsing never fails the caller. -/
theorem c5_suggestion_parsing :
    parseCodeSuggestions
        (str "**SUGGESTED CHANGES FOR foo.ts:**\nFix typo\n```ts\nconst x = 1;\n```") =
      [⟨str "foo.ts", str "Fix typo", str "ts", str "const x = 1;"⟩] ∧
    (∀ s : Str, hasMarkerCI s = false → parseCodeSuggestions s = []) ∧
    (∀ (s : Str) (sug : Suggestion), sug ∈ parseCodeSuggestions s →
      jsTrim sug.targetFile = sug.targetFile ∧
      jsTrim sug.rationale = sug.rationale ∧
      jsTrim sug.proposedContent = sug.proposedContent) := by
  refine ⟨by decide, ?_, ?_⟩
  · intro s h
    exact scanSuggestions_nil_of_no_marker _ s h
  · intro s sug h
    exact mem_scanSuggestions_trimmed _ s sug h

/-- Witness for C5's no-occurrence part at a concrete marker-free
response. -/
theorem c5_witness :
    parseCodeSuggestions (str "no suggestions here") = [] :=
  c5_suggestion_parsing.2.1 (str "no suggestions here") (by decide)

theorem greedyFill_length_le (L : Int) :
    ∀ (items : List (Str × ℚ)) (res : Str),
      (res.length : Int) ≤ max L 0 →
      ((greedyFill L items res).length : Int) ≤ max L 0 := by
  intro items
  induction items with
  | nil => intro res h; exact h
  | cons it rest ih =>
    intro res h
    unfold greedyFill
    split
    · rename_i hg
      apply ih
      rw [List.length_append, List.length_append]
      by_cases hres : res.isEmpty = true
      · simp only [hres, if_true, List.length_nil]
        push_cast
        omega
      · simp only [hres, if_false, Bool.false_eq_true, List.length_cons,
          List.length_nil]
        push_cast
        omega
    · exact ih res h

theorem getRelevantContext_length_le (h : List Str) (m : Str) (L : Int) :
    ((getRelevantContext h m L).length : Int) ≤ max L 0 := by
  unfold getRelevantContext
  split
  · simp
  · dsimp only []
    split
    · rename_i hfit
      exact le_trans hfit (le_max_left _ _)
    · exact greedyFill_length_le L _ [] (by simp)

theorem buildFileSections_length_le :
    ∀ (fs : List (WFile × ℚ)) (rem : Int) (ctx : Str),
      ((buildFileSections fs rem ctx).length : Int) ≤ ctx.length + max rem 0 := by
  intro fs
  induction fs with
  | nil =>
    intro rem ctx
    unfold buildFileSections
    omega
  | cons fi rest ih =>
    intro rem ctx
    unfold buildFileSections
    dsimp only []
    split
    · omega
    · rename_i hrem
      split
      · split
        · rename_i hfit
          refine le_trans (ih _ _) ?_
          simp only [List.length_append, List.length_cons] at hfit ⊢
          push_cast at hfit ⊢
          omega
        · exact le_trans (ih _ _) (by omega)
      · split
        · rename_i hfit
          refine le_trans (ih _ _) ?_
          simp only [List.length_append, List.length_cons] at hfit ⊢
          push_cast at hfit ⊢
          omega
        · exact le_trans (ih _ _) (by omega)

theorem getRelevantCodebaseContext_length_le (w : Option (List WFile))
    (u : Str) (L : Int) :
    ((getRelevantCodebaseContext w u L).length : Int) ≤ max L 0 := by
  cases w with
  | none => simp [getRelevantCodebaseContext]
  | some files =>
    unfold getRelevantCodebaseContext
    dsimp only []
    split
    · simp
    · rename_i hL
      have h18 : ((str "CODEBASE CONTEXT:\n").length : Int) = 18 := by decide
      split
      all_goals try split
      all_goals
        first
          | (refine le_trans (buildFileSections_length_le _ _ _) ?_
             rw [h18]
             omega)
          | simp

/-- C2 (counterexample): for a user message of 12000 characters (with
empty history, no workspace and no active editor), the assembled prompt
has length `promptPreamble.length + 12013`, exceeding the claimed bound
of 12000 plus the fixed preamble length plus the longest truncation
marker (`...`, 3 characters): `_buildChatPrompt` always appends the
literal user message, which the claimed ceiling does not account for. -/
theorem c2_counterexample :
    ¬ (((buildChatPrompt (List.replicate 12000 'a') [] none none).length : Int) ≤
        12000 + (promptPreamble.length : Int) + 3) := by
  have e1 : ∀ (uu : Str) (L : Int),
      getRelevantCodebaseContext none uu L = ([] : Str) := fun _ _ => rfl
  have e2 : getCurrentFileContext none = ([] : Str) := rfl
  have e3 : ∀ (uu : Str) (L : Int),
      getRelevantContext [] uu L = ([] : Str) := fun _ _ => rfl
  unfold buildChatPrompt
  dsimp only []
  simp only [e1, e2, e3, List.isEmpty_nil, if_true, Bool.not_true, Bool.false_and,
    Bool.false_eq_true, if_false, List.append_nil]
  have h7 : (str "\nUser: ").length = 7 := by decide
  have h6 : (str "\nAICA:").length = 6 := by decide
  simp only [List.length_append, List.length_replicate, h7, h6]
  push_cast
  omega

/-- C2 (amended): for every user message of length at most 11990
characters — the bound the counterexample forces, since the literal user
message is always appended — and for every conversation history,
workspace and current-file context, the prompt produced by
`_buildChatPrompt` has length at most the configured hard window (12000)
plus the fixed preamble length plus the longest single truncation marker
(3 characters). -/
theorem c2_budget_ceiling_amended (u : Str) (hist : List Str)
    (w : Option (List WFile)) (a : Option WFile)
    (hu : (u.length : Int) ≤ 11990) :
    ((buildChatPrompt u hist w a).length : Int) ≤
      12000 + (promptPreamble.length : Int) + 3 := by
  unfold buildChatPrompt
  dsimp only []
  set R0 : Int := 12000 - (promptPreamble.length : Int) - (u.length : Int) - 100
    with hR0
  set C := getRelevantCodebaseContext w u (jsFloor06 R0) with hCdef
  set F := getCurrentFileContext a with hFdef
  have hcb : ((C.length : Int)) ≤ max (jsFloor06 R0) 0 :=
    getRelevantCodebaseContext_length_le w u (jsFloor06 R0)
  have hfl : jsFloor06 R0 = 6 * R0 / 10 := rfl
  have h2 : (str "\n\n").length = 2 := by decide
  have h7 : (str "\nUser: ").length = 7 := by decide
  have h6 : (str "\nAICA:").length = 6 := by decide
  by_cases hc : C.isEmpty = true
  · simp only [hc, if_true]
    split
    · rename_i haf
      simp only [Bool.and_eq_true, decide_eq_true_eq] at haf
      obtain ⟨-, haf2⟩ := haf
      have hH := getRelevantContext_length_le hist u (R0 - (F.length : Int))
      simp only [List.length_append, h2, h7, h6]
      push_cast
      push_cast at hH hcb
      omega
    · rename_i haf
      have hH := getRelevantContext_length_le hist u R0
      simp only [List.length_append, h2, h7, h6]
      push_cast
      push_cast at hH hcb
      omega
  · simp only [if_neg hc]
    have hcne : C ≠ [] := by simpa using hc
    have hclen : 0 < C.length := List.length_pos.mpr hcne
    split
    · rename_i haf
      simp only [Bool.and_eq_true, decide_eq_true_eq] at haf
      obtain ⟨-, haf2⟩ := haf
      have hH := getRelevantContext_length_le hist u
        (R0 - (C.length : Int) - (F.length : Int))
      simp only [List.length_append, h2, h7, h6]
      push_cast
      push_cast at hH hcb
      omega
    · rename_i haf
      have hH := getRelevantContext_length_le hist u (R0 - (C.length : Int))
      simp only [List.length_append, h2, h7, h6]
      push_cast
      push_cast at hH hcb
      omega

/-- Witness for C2 (amended) at a concrete short user message with empty
collaborators. -/
theorem c2_witness :
    ((buildChatPrompt (str "hi") [] none none).length : Int) ≤
      12000 + (promptPreamble.length : Int) + 3 :=
  c2_budget_ceiling_amended (str "hi") [] none none (by decide)
